import Mathlib

/-!
# Verification of the `qgh` interactive repository finder

A shallow embedding, in Lean 4, of the core of `main.go` (the first, current
copy of the file: tokenizer, mnemonic matcher, filter pipeline, path
minimizer, and the list/detail view state machine), together with theorems
settling the specification's claims about it.

Go strings are byte strings and the code indexes them by byte
(`text[pos]`, `word[0]`); we model a string as `List Nat`, one `Nat` per
byte.  All inputs of interest are ASCII, where Go's rune iteration
(`for i, r := range text`) visits exactly the bytes in order, so byte
positions and rune positions coincide.  `strings.ToLower` restricted to
ASCII adds 32 to the bytes 65–90 (`A`–`Z`) and keeps everything else.
-/

/-- Convert a Lean string literal to its list of (ASCII) byte values,
used to write concrete test inputs readably. -/
def strToBytes (s : String) : List Nat :=
  s.data.map Char.toNat

/-- ASCII model of Go `strings.ToLower` on one byte: bytes 65–90
(`A`–`Z`) are shifted to 97–122 (`a`–`z`), all other bytes unchanged. -/
def toLowerByte (b : Nat) : Nat :=
  if 65 ≤ b ∧ b ≤ 90 then b + 32 else b

/-- ASCII model of Go `strings.ToLower` on a whole string. -/
def toLowerStr (s : List Nat) : List Nat :=
  s.map toLowerByte

/-- The byte-range test `(r >= 'a' && r <= 'z')` from `extractWords` /
`isWordBoundary` in main.go. -/
def isLowerAZ (b : Nat) : Bool :=
  97 ≤ b ∧ b ≤ 122

/-- The byte-range test `(r >= 'A' && r <= 'Z')` from `extractWords` /
`isWordBoundary` in main.go. -/
def isUpperAZ (b : Nat) : Bool :=
  65 ≤ b ∧ b ≤ 90

/-- The byte-range test `(r >= '0' && r <= '9')` from `extractWords`. -/
def isDigitByte (b : Nat) : Bool :=
  48 ≤ b ∧ b ≤ 57

/-- The alphanumeric test of `extractWords` (main.go:548):
`(r >= 'a' && r <= 'z') || (r >= 'A' && r <= 'Z') || (r >= '0' && r <= '9')`. -/
def isAlnumByte (b : Nat) : Bool :=
  isLowerAZ b || isUpperAZ b || isDigitByte b

/-- The delimiter test of `isWordBoundary` (main.go:572):
`prev == '-' || prev == '_' || prev == '/' || prev == '\\' || prev == '.'`.
The byte values are 45 `-`, 95 `_`, 47 `/`, 92 `\`, 46 `.`. -/
def isDelimByte (b : Nat) : Bool :=
  b = 45 ∨ b = 95 ∨ b = 47 ∨ b = 92 ∨ b = 46

/-- `isWordBoundary` (main.go:560–581): position 0 is a boundary; positions
at or past the end are not; otherwise a boundary holds after a delimiter
byte or at a lowercase-to-uppercase transition. -/
def isWordBoundary (text : List Nat) (pos : Nat) : Bool :=
  if pos = 0 then true
  else if pos ≥ text.length then false
  else
    let current := text.getD pos 0
    let prev := text.getD (pos - 1) 0
    if isDelimByte prev then true
    else if isLowerAZ prev && isUpperAZ current then true
    else false

/-- Variant of `isWordBoundary` with the camelCase (lowercase-to-uppercase)
clause removed; used to state the refinement claim about lowercased input. -/
def isWordBoundaryNoCamel (text : List Nat) (pos : Nat) : Bool :=
  if pos = 0 then true
  else if pos ≥ text.length then false
  else
    let prev := text.getD (pos - 1) 0
    if isDelimByte prev then true
    else false

/-- The boundary half of the `extractWords` loop body (main.go:541–546):
at a word boundary a non-empty current word is flushed. -/
def flushStep (boundaryAt : Nat → Bool)
    (acc : List (List Nat) × List Nat) (i : Nat) :
    List (List Nat) × List Nat :=
  if boundaryAt i && !acc.2.isEmpty then (acc.1 ++ [acc.2], ([] : List Nat)) else acc

/-- One iteration of the `extractWords` loop body (main.go:540–551), acting
on the accumulator `(words, currentWord)` at position `p.1` holding byte
`p.2`: the boundary flush, then an alphanumeric byte is appended to the
current word. -/
def extractStep (boundaryAt : Nat → Bool)
    (acc : List (List Nat) × List Nat) (p : Nat × Nat) :
    List (List Nat) × List Nat :=
  if isAlnumByte p.2 then
    ((flushStep boundaryAt acc p.1).1, (flushStep boundaryAt acc p.1).2 ++ [p.2])
  else flushStep boundaryAt acc p.1

/-- The final flush of `extractWords` (main.go:553–555). -/
def finalFlush (r : List (List Nat) × List Nat) : List (List Nat) :=
  if !r.2.isEmpty then r.1 ++ [r.2] else r.1

/-- The `extractWords` loop (main.go:536–558) over an arbitrary boundary
predicate: fold the loop body over the indexed bytes, then flush the final
non-empty word. -/
def extractWordsB (boundaryAt : Nat → Bool) (text : List Nat) : List (List Nat) :=
  finalFlush (text.enum.foldl (extractStep boundaryAt) ([], []))

/-- `extractWords` (main.go:536–558), with the boundary predicate of the
source, `isWordBoundary`. -/
def extractWords (text : List Nat) : List (List Nat) :=
  extractWordsB (isWordBoundary text) text

/-- The `extractWords` loop run with the camelCase boundary clause removed;
used only to state the refinement claim. -/
def extractWordsNoCamel (text : List Nat) : List (List Nat) :=
  extractWordsB (isWordBoundaryNoCamel text) text

/-- The query-consuming loop of `matchesMnemonic` (main.go:522–531): walk
the words; stop incrementing once the whole query is consumed; a non-empty
word whose first byte equals (case-insensitively) the next unconsumed query
byte consumes that byte. -/
def mnemonicLoop (query : List Nat) : List (List Nat) → Nat → Nat
  | [], qi => qi
  | word :: words, qi =>
    if qi ≥ query.length then qi
    else if word.length > 0 ∧ toLowerByte (word.headD 0) = toLowerByte (query.getD qi 0) then
      mnemonicLoop query words (qi + 1)
    else mnemonicLoop query words qi

/-- `matchesMnemonic` (main.go:515–534): the empty query matches, otherwise
the greedy loop over `extractWords text` must consume the entire query. -/
def matchesMnemonic (text query : List Nat) : Bool :=
  if query.length = 0 then true
  else mnemonicLoop query (extractWords text) 0 = query.length

/-- The mnemonic matcher with the camelCase boundary clause removed from
its tokenizer; used only to state the refinement claim. -/
def matchesMnemonicNoCamel (text query : List Nat) : Bool :=
  if query.length = 0 then true
  else mnemonicLoop query (extractWordsNoCamel text) 0 = query.length

/-- Model of Go `strings.Contains(s, sub)`: some suffix of `s` starts with
`sub` (the empty `sub` is contained in every `s`). -/
def containsSubstr (s sub : List Nat) : Bool :=
  (List.range (s.length + 1)).any (fun i => sub.isPrefixOf (s.drop i))

/-- A pull request record (`PR`, main.go:30–36).  `Branch` is always empty
in the cache and never read by the filter pipeline, so it is omitted. -/
structure PR where
  number : Nat
  title : List Nat
  url : List Nat
  repoURL : List Nat
deriving DecidableEq, Repr, Inhabited

/-- A repository record (`GitRepo`, main.go:22–28). -/
structure GitRepo where
  directory : List Nat
  origin : List Nat
  githubURL : List Nat
  prCount : Nat
  matchingPRs : List PR
deriving DecidableEq, Repr, Inhabited

/-- The sentinel stored in `GitHubURL` when a repository has no remote. -/
def sentinelNA : List Nat := strToBytes "N/A"

/-- The sentinel stored in `GitHubURL` when the remote is not GitHub. -/
def sentinelNonGitHub : List Nat := strToBytes "Non-GitHub"

/-- The PR cache (`PRCache`, main.go:39–43).  The Go map `prsByRepo` is
modelled as a total function from repository URL to PR list; in the source
every stored entry is a non-empty slice and a missing key reads as the
empty slice, so "key absent" and "empty list" coincide at every use site. -/
structure PRCache where
  allPRs : List PR
  prsByRepo : List Nat → List PR
  loaded : Bool

/-- The two top-level views (`viewState`, main.go:45–50). -/
inductive ViewState where
  | listView
  | detailView
deriving DecidableEq, Repr

/-- The application state (`model`, main.go:52–78).  Go `int` fields that
the arithmetic can drive below zero (`cursor`, offsets, terminal height)
are `Int`. -/
structure Model where
  repos : List GitRepo
  filteredRepos : List GitRepo
  searchInput : List Nat
  cursor : Int
  prCache : Option PRCache
  currentView : ViewState
  selectedRepo : Option GitRepo
  repoDetails : List PR
  detailCursor : Int
  loadingPRs : Bool
  prLoadError : List Nat
  startedInDetailView : Bool
  terminalHeight : Int
  scrollOffset : Int
  detailScrollOffset : Int
  prMode : Bool

/-- The per-repository annotation shared by the two non-PR branches of
`filterRepos` (main.go:416–426 and 445–454): clear `MatchingPRs`, and if
the cache is present and loaded replace `PRCount` by the cached count for
the repository's GitHub URL (0 when the URL has no cached PRs), otherwise
keep the record's own count. -/
def updateCountFromCache (cache : Option PRCache) (repo : GitRepo) : GitRepo :=
  let c := { repo with matchingPRs := [] }
  match cache with
  | some pc => if pc.loaded then { c with prCount := (pc.prsByRepo repo.githubURL).length } else c
  | none => c

/-- The title test of `filterReposByPRs` (main.go:483–487): lowercased
title contains the lowercased search text, or matches it mnemonically. -/
def prTitleMatches (searchLower : List Nat) (pr : PR) : Bool :=
  let titleLower := toLowerStr pr.title
  containsSubstr titleLower searchLower || matchesMnemonic titleLower searchLower

/-- `filterReposByPRs` (main.go:471–513).  With no cache or an unloaded
cache the result is empty.  Otherwise the matching PRs are grouped by
owning repository URL (the Go map built at main.go:492–496 maps each URL to
the in-order sublist of matching PRs owned by it, and has a key exactly
when that sublist is non-empty), and a repository with a non-sentinel
GitHub URL whose group is non-empty is emitted with the group attached and
its total cached PR count. -/
def filterReposByPRs (m : Model) : Model :=
  match m.prCache with
  | none => { m with filteredRepos := [] }
  | some cache =>
    if !cache.loaded then { m with filteredRepos := [] }
    else
      let searchLower := toLowerStr m.searchInput
      let matchingPRs := cache.allPRs.filter (prTitleMatches searchLower)
      let filtered := m.repos.filterMap (fun repo =>
        if repo.githubURL ≠ sentinelNA ∧ repo.githubURL ≠ sentinelNonGitHub then
          let group := matchingPRs.filter (fun pr => pr.repoURL = repo.githubURL)
          if !group.isEmpty then
            some { repo with matchingPRs := group,
                             prCount := (cache.prsByRepo repo.githubURL).length }
          else none
        else none)
      { m with filteredRepos := filtered }

/-- The local-mode pass test of `filterRepos` (main.go:441–444): lowercased
directory or lowercased GitHub URL contains the lowercased search text, or
either matches it mnemonically. -/
def localRepoMatches (searchLower : List Nat) (repo : GitRepo) : Bool :=
  let dirLower := toLowerStr repo.directory
  let urlLower := toLowerStr repo.githubURL
  containsSubstr dirLower searchLower || containsSubstr urlLower searchLower ||
    matchesMnemonic dirLower searchLower || matchesMnemonic urlLower searchLower

/-- `filterRepos` (main.go:411–469): empty search shows every repository
with cache-derived counts; otherwise PR mode delegates to
`filterReposByPRs` and local mode keeps the repositories passing
`localRepoMatches`, annotated.  Afterwards the cursor is clamped
(`cursor >= len → len-1`, then `cursor < 0 → 0`) and the scroll offset is
reset to 0. -/
def applyFilterBranch (m : Model) : Model :=
  if m.searchInput = [] then
    { m with filteredRepos := m.repos.map (updateCountFromCache m.prCache) }
  else if m.prMode then
    filterReposByPRs m
  else
    { m with filteredRepos := m.repos.filterMap (fun repo =>
        if localRepoMatches (toLowerStr m.searchInput) repo then
          some (updateCountFromCache m.prCache repo)
        else none) }

/-- The first cursor clamp of `filterRepos` (main.go:462–464):
`if cursor >= len { cursor = len - 1 }`. -/
def clampHigh (cursor len : Int) : Int :=
  if cursor ≥ len then len - 1 else cursor

/-- The second cursor clamp of `filterRepos` (main.go:465–467):
`if cursor < 0 { cursor = 0 }`. -/
def clampLow (c : Int) : Int :=
  if c < 0 then 0 else c

def filterRepos (m : Model) : Model :=
  { applyFilterBranch m with
    cursor := clampLow (clampHigh (applyFilterBranch m).cursor
      ((applyFilterBranch m).filteredRepos.length : Int))
    scrollOffset := 0 }

/-- Key events distinguished by the `msg.String()` switches of
`updateListView` / `updateDetailView`.  `char c` is the default branch for
a single-byte key (appends to the search text); `other` is any other key
(no-op). -/
inductive Key where
  | ctrlC
  | ctrlD
  | ctrlP
  | up
  | down
  | pgup
  | pgdown
  | enter
  | esc
  | backspace
  | char (c : Nat)
  | other
deriving DecidableEq, Repr

/-- The commands a key handler can emit: `tea.Quit`, or the
change-directory hand-off carrying the selected path. -/
inductive Cmd where
  | quit
  | changeDir (path : List Nat)
deriving DecidableEq, Repr

/-- The list-view visible height (main.go:204, 215, 230):
`terminalHeight - 10 - 2`, floored at 1. -/
def visibleHeightList (terminalHeight : Int) : Int :=
  let v := terminalHeight - 10 - 2
  if v < 1 then 1 else v

/-- The detail-view visible height (main.go:344, 355, 370):
`terminalHeight - 11 - 2`, floored at 1. -/
def visibleHeightDetail (terminalHeight : Int) : Int :=
  let v := terminalHeight - 11 - 2
  if v < 1 then 1 else v

/-- `handleSearchChange` (main.go:405–409): re-filter immediately. -/
def handleSearchChange (m : Model) : Model × Option Cmd :=
  (filterRepos m, none)

/-- `updateListView` (main.go:175–291).  Go's in-range slice index
`m.filteredRepos[m.cursor]` is modelled with `getD` at `cursor.toNat`
(the source only reaches it behind the `len > 0` guard with an in-range
cursor). -/
def updateListView (m : Model) (k : Key) : Model × Option Cmd :=
  match k with
  | .ctrlC => (m, some .quit)
  | .ctrlD =>
    if m.filteredRepos.length > 0 then
      (m, some (.changeDir (m.filteredRepos.getD m.cursor.toNat default).directory))
    else (m, none)
  | .ctrlP =>
    (filterRepos { m with prMode := true, searchInput := [] }, none)
  | .up =>
    if m.cursor > 0 then
      let c := m.cursor - 1
      let s := if c < m.scrollOffset then c else m.scrollOffset
      ({ m with cursor := c, scrollOffset := s }, none)
    else (m, none)
  | .down =>
    if m.cursor < (m.filteredRepos.length : Int) - 1 then
      let c := m.cursor + 1
      let vh := visibleHeightList m.terminalHeight
      let s := if c ≥ m.scrollOffset + vh then c - vh + 1 else m.scrollOffset
      ({ m with cursor := c, scrollOffset := s }, none)
    else (m, none)
  | .pgup =>
    let vh := visibleHeightList m.terminalHeight
    let c0 := m.cursor - vh
    let c := if c0 < 0 then 0 else c0
    let s := if c < m.scrollOffset then c else m.scrollOffset
    ({ m with cursor := c, scrollOffset := s }, none)
  | .pgdown =>
    let vh := visibleHeightList m.terminalHeight
    let c0 := m.cursor + vh
    let c := if c0 ≥ (m.filteredRepos.length : Int) then (m.filteredRepos.length : Int) - 1 else c0
    let s := if c ≥ m.scrollOffset + vh then c - vh + 1 else m.scrollOffset
    ({ m with cursor := c, scrollOffset := s }, none)
  | .enter =>
    if m.filteredRepos.length > 0 then
      let repo := m.filteredRepos.getD m.cursor.toNat default
      let details :=
        match m.prCache with
        | some cache => if cache.loaded then cache.prsByRepo repo.githubURL else []
        | none => []
      ({ m with selectedRepo := some repo, currentView := .detailView,
                detailCursor := 0, detailScrollOffset := 0,
                loadingPRs := false, prLoadError := [],
                repoDetails := details }, none)
    else (m, none)
  | .esc =>
    if m.searchInput ≠ [] then
      handleSearchChange { m with searchInput := [] }
    else if m.prMode then
      (filterRepos { m with prMode := false }, none)
    else (m, some .quit)
  | .backspace =>
    if m.searchInput ≠ [] then
      handleSearchChange { m with searchInput := m.searchInput.dropLast }
    else (m, none)
  | .char c =>
    handleSearchChange { m with searchInput := m.searchInput ++ [c] }
  | .other => (m, none)

/-- The block of state resets shared by the fall-through of the `esc` case
of `updateDetailView` (main.go:321–325): back to the list view with the
selection and detail cursor/scroll cleared. -/
def detailEscReset (m : Model) : Model :=
  { m with currentView := .listView, selectedRepo := none, repoDetails := [],
           detailCursor := 0, detailScrollOffset := 0 }

/-- `updateDetailView` (main.go:293–403).  `enter` invokes the external
`openURL` side effect and leaves the state unchanged, so it is modelled as
a no-op.  Note the `esc` case: when the process started in the detail view
and PR mode is on, turning PR mode off does NOT return early — control
falls through to the reset block that switches to the list view. -/
def updateDetailView (m : Model) (k : Key) : Model × Option Cmd :=
  match k with
  | .ctrlC => (m, some .quit)
  | .ctrlD =>
    match m.selectedRepo with
    | some repo => (m, some (.changeDir repo.directory))
    | none => (m, none)
  | .ctrlP =>
    (filterRepos { m with prMode := true, searchInput := [], currentView := .listView,
                          selectedRepo := none, repoDetails := [],
                          detailCursor := 0, detailScrollOffset := 0 }, none)
  | .esc =>
    if m.startedInDetailView then
      if m.prMode then (detailEscReset { m with prMode := false }, none)
      else (m, some .quit)
    else (detailEscReset m, none)
  | .up =>
    if m.detailCursor > 0 then
      let c := m.detailCursor - 1
      let s := if c < m.detailScrollOffset then c else m.detailScrollOffset
      ({ m with detailCursor := c, detailScrollOffset := s }, none)
    else (m, none)
  | .down =>
    let maxItems : Int :=
      if m.repoDetails.length > 0 then 1 + m.repoDetails.length else 1
    if m.detailCursor < maxItems - 1 then
      let c := m.detailCursor + 1
      let vh := visibleHeightDetail m.terminalHeight
      let s := if c ≥ m.detailScrollOffset + vh then c - vh + 1 else m.detailScrollOffset
      ({ m with detailCursor := c, detailScrollOffset := s }, none)
    else (m, none)
  | .pgup =>
    let vh := visibleHeightDetail m.terminalHeight
    let c0 := m.detailCursor - vh
    let c := if c0 < 0 then 0 else c0
    let s := if c < m.detailScrollOffset then c else m.detailScrollOffset
    ({ m with detailCursor := c, detailScrollOffset := s }, none)
  | .pgdown =>
    let vh := visibleHeightDetail m.terminalHeight
    let maxItems : Int :=
      if m.repoDetails.length > 0 then 1 + m.repoDetails.length else 1
    let c0 := m.detailCursor + vh
    let c := if c0 ≥ maxItems then maxItems - 1 else c0
    let s := if c ≥ m.detailScrollOffset + vh then c - vh + 1 else m.detailScrollOffset
    ({ m with detailCursor := c, detailScrollOffset := s }, none)
  | .enter => (m, none)
  | .backspace => (m, none)
  | .char _ => (m, none)
  | .other => (m, none)

/-- The common-prefix counting loop of `findCommonPrefix`
(main.go:1341–1356): starting at component index `i` with `remaining`
iterations left, count consecutive indices at which every other path
agrees with `first`, stopping at the first mismatch. -/
def commonLoop (first : List (List Nat)) (rest : List (List (List Nat))) :
    Nat → Nat → Nat
  | _, 0 => 0
  | i, r + 1 =>
    if rest.all (fun p => p.get? i = first.get? i) then
      1 + commonLoop first rest (i + 1) r
    else 0

/-- `findCommonPrefix` (main.go:1327–1359): the length of the longest
common leading-component prefix, scanning up to the minimum path length. -/
def findCommonPrefix (paths : List (List (List Nat))) : Nat :=
  match paths with
  | [] => 0
  | first :: rest =>
    let minLen := (first :: rest).foldl (fun acc p => min acc p.length) first.length
    commonLoop first rest 0 minLen

/-- `calculateMinimalPaths` (main.go:1295–1325).  `filepath.Rel(".", d)` is
the identity on the cleaned relative paths the discovery collaborator
produces, so it is modelled as the identity; `strings.Split` on the
separator `/` (byte 47) is `List.splitOn 47`, and `strings.Join` is
`List.intercalate [47]`.  A path fully consumed by the common prefix falls
back to its final component. -/
def calculateMinimalPaths (repos : List GitRepo) : List (List Nat) :=
  if repos = [] then []
  else
    let paths := repos.map (fun r => r.directory.splitOn 47)
    let commonPrefixLen := findCommonPrefix paths
    paths.map (fun p =>
      if commonPrefixLen ≥ p.length then p.getLastD []
      else List.intercalate [47] (p.drop commonPrefixLen))

/-- The single greedy left-to-right pass of §4.2, as the specification
words it: walking the tokens in order, a token consumes the next unconsumed
query byte exactly when the token is non-empty and its first byte equals
that byte case-insensitively; each token consumes at most one byte; the
pass succeeds when the whole query is consumed. -/
def greedyPass : List (List Nat) → List Nat → Bool
  | _, [] => true
  | [], _ :: _ => false
  | word :: words, c :: cs =>
    if word ≠ [] ∧ toLowerByte (word.headD 0) = toLowerByte c then greedyPass words cs
    else greedyPass words (c :: cs)

/-- The word-boundary rule as the specification words it: a boundary at
position 0, after any of the delimiter bytes, and at a
lowercase-to-uppercase transition (and only inside the string). -/
def boundarySpec (text : List Nat) (pos : Nat) : Bool :=
  pos == 0 ||
    (decide (pos < text.length) &&
      (isDelimByte (text.getD (pos - 1) 0) ||
        (isLowerAZ (text.getD (pos - 1) 0) && isUpperAZ (text.getD pos 0))))

/-- All bytes of all accumulated words, and of the word being built, are
alphanumeric, and every accumulated word is non-empty. -/
def wordsInv (ws : List (List Nat)) : Prop :=
  ∀ w ∈ ws, w ≠ [] ∧ ∀ b ∈ w, isAlnumByte b = true

lemma flushStep_inv (boundary : Nat → Bool) (acc : List (List Nat) × List Nat)
    (i : Nat) (h1 : wordsInv acc.1) (h2 : ∀ b ∈ acc.2, isAlnumByte b = true) :
    wordsInv (flushStep boundary acc i).1 ∧
      ∀ b ∈ (flushStep boundary acc i).2, isAlnumByte b = true := by
  unfold flushStep
  split
  · rename_i hcond
    refine ⟨?_, by simp⟩
    intro w hw
    rcases List.mem_append.mp hw with hw | hw
    · exact h1 w hw
    · have hw' : w = acc.2 := by simpa using hw
      subst hw'
      refine ⟨?_, h2⟩
      have : !acc.2.isEmpty = true := by
        cases hcb : (boundary i && !acc.2.isEmpty) <;> simp_all
      simpa [List.isEmpty_iff] using this
  · exact ⟨h1, h2⟩

lemma extractStep_inv (boundary : Nat → Bool) (acc : List (List Nat) × List Nat)
    (p : Nat × Nat) (h1 : wordsInv acc.1) (h2 : ∀ b ∈ acc.2, isAlnumByte b = true) :
    wordsInv (extractStep boundary acc p).1 ∧
      ∀ b ∈ (extractStep boundary acc p).2, isAlnumByte b = true := by
  have hfl := flushStep_inv boundary acc p.1 h1 h2
  unfold extractStep
  split
  · rename_i halnum
    refine ⟨hfl.1, ?_⟩
    intro b hb
    rcases List.mem_append.mp hb with hb | hb
    · exact hfl.2 b hb
    · have : b = p.2 := by simpa using hb
      subst this
      exact halnum
  · exact hfl

lemma foldl_extractStep_inv (boundary : Nat → Bool) :
    ∀ (l : List (Nat × Nat)) (acc : List (List Nat) × List Nat),
      wordsInv acc.1 → (∀ b ∈ acc.2, isAlnumByte b = true) →
      wordsInv (l.foldl (extractStep boundary) acc).1 ∧
        ∀ b ∈ (l.foldl (extractStep boundary) acc).2, isAlnumByte b = true := by
  intro l
  induction l with
  | nil => intro acc h1 h2; exact ⟨h1, h2⟩
  | cons p l ih =>
    intro acc h1 h2
    have h := extractStep_inv boundary acc p h1 h2
    simpa [List.foldl_cons] using ih (extractStep boundary acc p) h.1 h.2

lemma extractWordsB_inv (boundary : Nat → Bool) (text : List Nat) :
    wordsInv (extractWordsB boundary text) := by
  unfold extractWordsB finalFlush
  have h := foldl_extractStep_inv boundary text.enum ([], [])
    (by intro w hw; simp at hw) (by intro b hb; simp at hb)
  split
  · rename_i hne
    intro w hw
    rcases List.mem_append.mp hw with hw | hw
    · exact h.1 w hw
    · have hw' : w = (text.enum.foldl (extractStep boundary) ([], [])).2 := by simpa using hw
      subst hw'
      refine ⟨by simpa [List.isEmpty_iff] using hne, h.2⟩
  · exact h.1

lemma extractWords_inv (text : List Nat) : wordsInv (extractWords text) :=
  extractWordsB_inv _ text

/-- Greedy first-letter scanning is complete for first-letter subsequence
alignment: if the lowered query is a sublist of the lowered token first
letters, the greedy pass succeeds. -/
lemma greedyPass_complete :
    ∀ (words : List (List Nat)) (query : List Nat),
      (∀ w ∈ words, w ≠ []) →
      (query.map toLowerByte).Sublist
        (words.map (fun w => toLowerByte (w.headD 0))) →
      greedyPass words query = true := by
  intro words
  induction words with
  | nil =>
    intro query _ hsub
    have : query.map toLowerByte = [] := List.sublist_nil.mp hsub
    have hq : query = [] := by simpa using this
    subst hq; rfl
  | cons w ws ih =>
    intro query hne hsub
    cases query with
    | nil => rfl
    | cons c cs =>
      have hwne : w ≠ [] := hne w (by simp)
      have hne' : ∀ u ∈ ws, u ≠ [] := fun u hu => hne u (by simp [hu])
      have hsub' : (toLowerByte c :: cs.map toLowerByte).Sublist
          (toLowerByte (w.headD 0) :: ws.map (fun u => toLowerByte (u.headD 0))) := by
        simpa using hsub
      by_cases hc : toLowerByte (w.headD 0) = toLowerByte c
      · have hcond : w ≠ [] ∧ toLowerByte (w.headD 0) = toLowerByte c := ⟨hwne, hc⟩
        have hcs : (cs.map toLowerByte).Sublist (ws.map (fun u => toLowerByte (u.headD 0))) := by
          generalize hA : toLowerByte c = a at hsub' hc
          generalize hB : toLowerByte (w.headD 0) = b at hsub' hc
          subst hc
          cases hsub' with
          | cons _ h => exact (List.sublist_cons_self _ _).trans h
          | cons₂ _ h => exact h
        simp only [greedyPass, if_pos hcond]
        exact ih cs hne' hcs
      · have hcond : ¬(w ≠ [] ∧ toLowerByte (w.headD 0) = toLowerByte c) := by
          intro h; exact hc h.2
        have hcs : ((c :: cs).map toLowerByte).Sublist
            (ws.map (fun u => toLowerByte (u.headD 0))) := by
          simp only [List.map_cons]
          generalize hA : toLowerByte c = a at hsub' hc
          generalize hB : toLowerByte (w.headD 0) = b at hsub' hc
          cases hsub' with
          | cons _ h => exact h
          | cons₂ _ h => exact absurd rfl hc
        simp only [greedyPass, if_neg hcond]
        exact ih (c :: cs) hne' hcs

lemma greedyPass_nil_query (words : List (List Nat)) : greedyPass words [] = true := by
  cases words <;> rfl

/-- The counter-driven loop of `matchesMnemonic` computes exactly the
recursive greedy pass on the still-unconsumed query suffix. -/
lemma mnemonicLoop_eq_greedyPass (query : List Nat) :
    ∀ (words : List (List Nat)) (qi : Nat), qi ≤ query.length →
      ((mnemonicLoop query words qi = query.length) ↔
        greedyPass words (query.drop qi) = true) := by
  intro words
  induction words with
  | nil =>
    intro qi hqi
    by_cases h : qi = query.length
    · subst h
      simp [mnemonicLoop, List.drop_length, greedyPass_nil_query]
    · have hlt : qi < query.length := lt_of_le_of_ne hqi h
      rw [List.drop_eq_getElem_cons hlt]
      simp [mnemonicLoop, greedyPass, h]
  | cons w ws ih =>
    intro qi hqi
    by_cases h : qi ≥ query.length
    · have hq : qi = query.length := le_antisymm hqi h
      subst hq
      simp [mnemonicLoop, List.drop_length, greedyPass_nil_query]
    · have hlt : qi < query.length := Nat.lt_of_not_ge h
      have hd : query.drop qi = query[qi] :: query.drop (qi + 1) :=
        List.drop_eq_getElem_cons hlt
      have hgetD : query.getD qi 0 = query[qi] := List.getD_eq_getElem query 0 hlt
      by_cases hc : w.length > 0 ∧ toLowerByte (w.headD 0) = toLowerByte (query.getD qi 0)
      · have hc' : w ≠ [] ∧ toLowerByte (w.headD 0) = toLowerByte query[qi] := by
          refine ⟨List.length_pos.mp hc.1, by rw [← hgetD]; exact hc.2⟩
        rw [hd]
        simp only [mnemonicLoop, if_neg h, if_pos hc, greedyPass, if_pos hc']
        exact ih (qi + 1) hlt
      · have hc' : ¬(w ≠ [] ∧ toLowerByte (w.headD 0) = toLowerByte query[qi]) := by
          intro hcon
          exact hc ⟨List.length_pos.mpr hcon.1, by rw [hgetD]; exact hcon.2⟩
        rw [hd]
        simp only [mnemonicLoop, if_neg h, if_neg hc, greedyPass, if_neg hc']
        rw [← hd]
        exact ih qi hqi

/-- `matchesMnemonic` is exactly the greedy left-to-right pass over the
extracted words. -/
lemma matchesMnemonic_eq_greedyPass (text query : List Nat) :
    matchesMnemonic text query = greedyPass (extractWords text) query := by
  unfold matchesMnemonic
  by_cases hq : query.length = 0
  · have : query = [] := List.length_eq_zero.mp hq
    subst this
    simp [greedyPass_nil_query]
  · have h := mnemonicLoop_eq_greedyPass query (extractWords text) 0 (Nat.zero_le _)
    rw [List.drop_zero] at h
    simp only [if_neg hq]
    cases hg : greedyPass (extractWords text) query
    · simp [h, hg]
    · simp [h.mpr hg]

/-- Lowercasing a byte never lands in the uppercase ASCII range. -/
lemma isUpperAZ_toLowerByte (b : Nat) : isUpperAZ (toLowerByte b) = false := by
  unfold toLowerByte isUpperAZ
  split <;> rename_i h <;> simp <;> omega

/-- On a lowercased string the camelCase clause of `isWordBoundary` never
fires, so the two boundary predicates agree at every position. -/
lemma isWordBoundary_toLowerStr (t : List Nat) (pos : Nat) :
    isWordBoundary (toLowerStr t) pos = isWordBoundaryNoCamel (toLowerStr t) pos := by
  unfold isWordBoundary isWordBoundaryNoCamel
  by_cases h0 : pos = 0
  · simp [h0]
  · simp only [if_neg h0]
    by_cases hl : pos ≥ (toLowerStr t).length
    · simp [hl]
    · simp only [if_neg hl]
      have hlt : pos < t.length := by
        simpa [toLowerStr] using Nat.lt_of_not_ge hl
      have hcur : (toLowerStr t).getD pos 0 = toLowerByte (t.getD pos 0) := by
        rw [List.getD_eq_getElem _ _ (by simpa [toLowerStr] using hlt),
            List.getD_eq_getElem _ _ hlt]
        simp [toLowerStr]
      rw [hcur]
      simp [isUpperAZ_toLowerByte]

lemma extractWords_toLowerStr (t : List Nat) :
    extractWords (toLowerStr t) = extractWordsNoCamel (toLowerStr t) := by
  unfold extractWords extractWordsNoCamel
  have h : isWordBoundary (toLowerStr t) = isWordBoundaryNoCamel (toLowerStr t) :=
    funext (isWordBoundary_toLowerStr t)
  rw [h]

/-- `isWordBoundary` computes exactly the boundary rule as the
specification words it. -/
lemma isWordBoundary_eq_boundarySpec (text : List Nat) (pos : Nat) :
    isWordBoundary text pos = boundarySpec text pos := by
  unfold isWordBoundary boundarySpec
  by_cases h0 : pos = 0
  · simp [h0]
  · simp only [if_neg h0, beq_iff_eq]
    by_cases hl : pos ≥ text.length
    · simp [h0, hl, Nat.not_lt.mpr hl]
    · have hlt : pos < text.length := Nat.lt_of_not_ge hl
      simp only [if_neg hl, hlt, decide_True, Bool.true_and]
      cases hd : isDelimByte (text.getD (pos - 1) 0)
      · simp [h0]
      · simp [h0]

/--
C2.  `matchesMnemonic(text, query)` is true exactly when the single greedy
left-to-right pass over the word tokens of `text` consumes the entire
query — where a token consumes the next unconsumed query character exactly
when its first character equals it case-insensitively and each token
consumes at most one character (`greedyPass`) — an empty query matches
every text, `matches("operations-istio-cni-helm", "oic")` is true, and
`matches("operations-istio-cni-helm", "oix")` is false.
-/
theorem matchesMnemonic_is_single_greedy_pass :
    (∀ text query : List Nat,
        matchesMnemonic text query = greedyPass (extractWords text) query) ∧
    (∀ text : List Nat, matchesMnemonic text [] = true) ∧
    matchesMnemonic (strToBytes "operations-istio-cni-helm") (strToBytes "oic") = true ∧
    matchesMnemonic (strToBytes "operations-istio-cni-helm") (strToBytes "oix") = false := by
  refine ⟨matchesMnemonic_eq_greedyPass, fun text => rfl, by decide, by decide⟩

/--
C4, counterexample to the claim as stated.  There is NO pair of a text and
a non-empty query for which a backtracking subsequence alignment of the
query against the first letters of the text's tokens exists while
`matchesMnemonic` returns false: the greedy pass is complete for that
alignment relation.
-/
theorem no_backtracking_beats_greedy :
    ¬ ∃ (text query : List Nat), query ≠ [] ∧
      (query.map toLowerByte).Sublist
        ((extractWords text).map (fun w => toLowerByte (w.headD 0))) ∧
      matchesMnemonic text query = false := by
  rintro ⟨text, query, -, hsub, hfalse⟩
  have hne : ∀ w ∈ extractWords text, w ≠ [] := fun w hw => (extractWords_inv text w hw).1
  have := greedyPass_complete (extractWords text) query hne hsub
  rw [matchesMnemonic_eq_greedyPass, this] at hfalse
  exact absurd hfalse (by simp)

/--
C4, amended.  Whenever a backtracking subsequence alignment of the query's
characters, in order, against the first letters of the text's tokens
exists, `matchesMnemonic` returns true as well: the greedy left-to-right
pass is complete for first-letter subsequence alignment, so no
backtracking match can succeed where the greedy pass fails.
-/
theorem greedy_pass_complete_for_alignment (text query : List Nat)
    (halign : (query.map toLowerByte).Sublist
      ((extractWords text).map (fun w => toLowerByte (w.headD 0)))) :
    matchesMnemonic text query = true := by
  have hne : ∀ w ∈ extractWords text, w ≠ [] := fun w hw => (extractWords_inv text w hw).1
  rw [matchesMnemonic_eq_greedyPass]
  exact greedyPass_complete (extractWords text) query hne halign

/-- Witness for C4's amended theorem at a concrete input:
`"operations-istio-cni-helm"` against `"och"`. -/
theorem greedy_pass_complete_for_alignment_witness :
    matchesMnemonic (strToBytes "operations-istio-cni-helm") (strToBytes "och") = true :=
  greedy_pass_complete_for_alignment
    (strToBytes "operations-istio-cni-helm") (strToBytes "och") (by decide)

/--
C9.  `extractWords` produces tokens of letters and digits only; its
boundary predicate declares a boundary exactly at position 0, after each
of the delimiter bytes `-`, `_`, `/`, `\`, `.`, and at each
lowercase-to-uppercase transition; `extractWords("")` is empty and
`extractWords("my-app_Name.v2") = ["my","app","Name","v2"]`.
-/
theorem extractWords_tokenization :
    (∀ text : List Nat, ∀ w ∈ extractWords text, ∀ b ∈ w, isAlnumByte b = true) ∧
    (∀ (text : List Nat) (pos : Nat), isWordBoundary text pos = boundarySpec text pos) ∧
    extractWords [] = [] ∧
    extractWords (strToBytes "my-app_Name.v2") =
      [strToBytes "my", strToBytes "app", strToBytes "Name", strToBytes "v2"] := by
  refine ⟨?_, isWordBoundary_eq_boundarySpec, by decide, by decide⟩
  intro text w hw b hb
  exact (extractWords_inv text w hw).2 b hb

/-- Witness for C9's theorem at a concrete input: every byte of every
token of `"my-app_Name.v2"` is alphanumeric, checked at the first token's
first byte. -/
theorem extractWords_tokenization_witness : isAlnumByte 109 = true :=
  extractWords_tokenization.1 (strToBytes "my-app_Name.v2") (strToBytes "my")
    (by decide) 109 (by decide)

/--
C10.  Because the filter pipeline lowercases both sides before every
mnemonic test, the camelCase boundary clause never fires during
filtering: on lowercased arguments `matchesMnemonic` coincides with the
matcher whose tokenizer lacks the camelCase rule, and `"myApp"` — split
into `["my","App"]` by `extractWords` — is tokenized as the single word
`["myapp"]` once lowercased.
-/
theorem lowered_matching_ignores_camel_case :
    (∀ t q : List Nat,
        matchesMnemonic (toLowerStr t) (toLowerStr q) =
          matchesMnemonicNoCamel (toLowerStr t) (toLowerStr q)) ∧
    extractWords (strToBytes "myApp") = [strToBytes "my", strToBytes "App"] ∧
    extractWords (toLowerStr (strToBytes "myApp")) = [strToBytes "myapp"] ∧
    extractWordsNoCamel (toLowerStr (strToBytes "myApp")) = [strToBytes "myapp"] := by
  refine ⟨?_, by decide, by decide, by decide⟩
  intro t q
  unfold matchesMnemonic matchesMnemonicNoCamel
  rw [extractWords_toLowerStr]

lemma updateCountFromCache_fields (c : Option PRCache) (r : GitRepo) :
    (updateCountFromCache c r).directory = r.directory ∧
    (updateCountFromCache c r).origin = r.origin ∧
    (updateCountFromCache c r).githubURL = r.githubURL ∧
    (updateCountFromCache c r).matchingPRs = [] ∧
    (updateCountFromCache c r).prCount =
      (match c with
       | some cache => if cache.loaded then (cache.prsByRepo r.githubURL).length else r.prCount
       | none => r.prCount) := by
  unfold updateCountFromCache
  cases c
  · exact ⟨rfl, rfl, rfl, rfl, rfl⟩
  · rename_i pc
    by_cases hl : pc.loaded = true
    · simp [hl]
    · simp [hl]

lemma updateCountFromCache_directory (c : Option PRCache) (r : GitRepo) :
    (updateCountFromCache c r).directory = r.directory := by
  unfold updateCountFromCache
  cases c
  · rfl
  · dsimp only
    split <;> rfl

lemma updateCountFromCache_githubURL (c : Option PRCache) (r : GitRepo) :
    (updateCountFromCache c r).githubURL = r.githubURL := by
  unfold updateCountFromCache
  cases c
  · rfl
  · dsimp only
    split <;> rfl

lemma localRepoMatches_eq_of_fields (s : List Nat) {r1 r2 : GitRepo}
    (hd : r1.directory = r2.directory) (hu : r1.githubURL = r2.githubURL) :
    localRepoMatches s r1 = localRepoMatches s r2 := by
  unfold localRepoMatches
  rw [hd, hu]

lemma filterRepos_filteredRepos_empty_search (m : Model) (h : m.searchInput = []) :
    (filterRepos m).filteredRepos = m.repos.map (updateCountFromCache m.prCache) := by
  unfold filterRepos applyFilterBranch
  simp [h]

lemma filterRepos_filteredRepos_local (m : Model)
    (h1 : m.searchInput ≠ []) (h2 : m.prMode = false) :
    (filterRepos m).filteredRepos = m.repos.filterMap (fun repo =>
      if localRepoMatches (toLowerStr m.searchInput) repo then
        some (updateCountFromCache m.prCache repo)
      else none) := by
  unfold filterRepos applyFilterBranch
  simp [h1, h2]

lemma filterRepos_filteredRepos_prMode (m : Model)
    (h1 : m.searchInput ≠ []) (h2 : m.prMode = true) :
    (filterRepos m).filteredRepos = (filterReposByPRs m).filteredRepos := by
  unfold filterRepos applyFilterBranch
  simp [h1, h2]

/--
C1.  In local mode with non-empty search text a repository is in the
filtered result exactly when it is the (count-annotated) copy of a stored
repository whose lowercased directory or lowercased derived GitHub URL
contains the lowercased search text as a substring, or either matches the
search text mnemonically.
-/
theorem local_mode_filter_membership (m : Model) (repo' : GitRepo)
    (hpr : m.prMode = false) (hs : m.searchInput ≠ []) :
    repo' ∈ (filterRepos m).filteredRepos ↔
      (∃ repo ∈ m.repos, repo' = updateCountFromCache m.prCache repo) ∧
      (containsSubstr (toLowerStr repo'.directory) (toLowerStr m.searchInput) = true ∨
       containsSubstr (toLowerStr repo'.githubURL) (toLowerStr m.searchInput) = true ∨
       matchesMnemonic (toLowerStr repo'.directory) (toLowerStr m.searchInput) = true ∨
       matchesMnemonic (toLowerStr repo'.githubURL) (toLowerStr m.searchInput) = true) := by
  rw [filterRepos_filteredRepos_local m hs hpr, List.mem_filterMap]
  constructor
  · rintro ⟨repo, hmem, hf⟩
    by_cases hmatch : localRepoMatches (toLowerStr m.searchInput) repo = true
    · rw [if_pos hmatch, Option.some_inj] at hf
      subst hf
      refine ⟨⟨repo, hmem, rfl⟩, ?_⟩
      have hm' : localRepoMatches (toLowerStr m.searchInput)
          (updateCountFromCache m.prCache repo) = true := by
        rw [localRepoMatches_eq_of_fields _ (updateCountFromCache_directory _ _)
          (updateCountFromCache_githubURL _ _)]
        exact hmatch
      simpa [localRepoMatches, Bool.or_eq_true, or_assoc] using hm'
    · rw [if_neg hmatch] at hf
      exact absurd hf (by simp)
  · rintro ⟨⟨repo, hmem, heq⟩, hpred⟩
    refine ⟨repo, hmem, ?_⟩
    have hmatch : localRepoMatches (toLowerStr m.searchInput) repo = true := by
      rw [← localRepoMatches_eq_of_fields _ (updateCountFromCache_directory m.prCache repo)
        (updateCountFromCache_githubURL m.prCache repo), ← heq]
      simpa [localRepoMatches, Bool.or_eq_true, or_assoc] using hpred
    rw [if_pos hmatch, heq]

/-- A repository record for concrete tests: a GitHub-linked project. -/
def projRepo : GitRepo :=
  { directory := strToBytes "work/proj", origin := strToBytes "git@github.com:o/proj.git",
    githubURL := strToBytes "https://github.com/o/proj", prCount := 0, matchingPRs := [] }

/-- A repository record for concrete tests: no GitHub linkage. -/
def unlinkedRepo : GitRepo :=
  { directory := strToBytes "work/tools", origin := [],
    githubURL := sentinelNA, prCount := 3, matchingPRs := [] }

/-- A baseline application state for concrete tests. -/
def baseModel : Model :=
  { repos := [], filteredRepos := [], searchInput := [], cursor := 0,
    prCache := none, currentView := .listView, selectedRepo := none,
    repoDetails := [], detailCursor := 0, loadingPRs := false, prLoadError := [],
    startedInDetailView := false, terminalHeight := 24, scrollOffset := 0,
    detailScrollOffset := 0, prMode := false }

/-- A local-mode state searching for `"proj"` over one repository. -/
def localSearchModel : Model :=
  { baseModel with repos := [projRepo], searchInput := strToBytes "proj" }

/-- Witness for C1 at a concrete input: searching `"proj"` in local mode
finds the linked project repository. -/
theorem local_mode_filter_membership_witness :
    { projRepo with matchingPRs := [] } ∈ (filterRepos localSearchModel).filteredRepos :=
  (local_mode_filter_membership localSearchModel
      { projRepo with matchingPRs := [] } rfl (by decide)).mpr
    ⟨⟨projRepo, by decide, by decide⟩, Or.inl (by decide)⟩

/-- A PR-mode state with empty search text over one unlinked repository
and a loaded, empty PR cache. -/
def prModeEmptySearchModel : Model :=
  { baseModel with
    repos := [unlinkedRepo]
    prMode := true
    prCache := some { allPRs := [], prsByRepo := fun _ => [], loaded := true } }

/--
C5, counterexample to the claim as stated.  In PR mode with empty search
text the filter does NOT restrict to repositories with GitHub linkage: a
repository whose derived GitHub URL is the sentinel `"N/A"` still appears
in the filtered result.
-/
theorem pr_mode_empty_search_keeps_unlinked_repo :
    prModeEmptySearchModel.prMode = true ∧
    prModeEmptySearchModel.searchInput = [] ∧
    unlinkedRepo.githubURL = sentinelNA ∧
    (filterRepos prModeEmptySearchModel).filteredRepos.map (fun r => r.githubURL) =
      [sentinelNA] := by
  refine ⟨rfl, rfl, rfl, by decide⟩

/--
C5, amended.  With empty search text (in PR mode as in local mode) the
filtered result contains every repository, GitHub-linked or not, in
order, with per-filter-pass annotations cleared; when the PR cache is
loaded each entry's count is the cache-derived count for its GitHub URL,
otherwise its stored count is kept.
-/
theorem empty_search_shows_all_repos (m : Model) (h : m.searchInput = []) :
    (filterRepos m).filteredRepos.length = m.repos.length ∧
    ∀ i, i < m.repos.length →
      ((filterRepos m).filteredRepos.getD i default).directory = (m.repos.getD i default).directory ∧
      ((filterRepos m).filteredRepos.getD i default).origin = (m.repos.getD i default).origin ∧
      ((filterRepos m).filteredRepos.getD i default).githubURL = (m.repos.getD i default).githubURL ∧
      ((filterRepos m).filteredRepos.getD i default).matchingPRs = [] ∧
      ((filterRepos m).filteredRepos.getD i default).prCount =
        (match m.prCache with
         | some cache =>
           if cache.loaded then (cache.prsByRepo (m.repos.getD i default).githubURL).length
           else (m.repos.getD i default).prCount
         | none => (m.repos.getD i default).prCount) := by
  rw [filterRepos_filteredRepos_empty_search m h]
  refine ⟨by simp, ?_⟩
  intro i hi
  have hlen : i < (m.repos.map (updateCountFromCache m.prCache)).length := by simpa using hi
  rw [List.getD_eq_getElem _ _ hlen, List.getD_eq_getElem _ _ hi, List.getElem_map]
  exact updateCountFromCache_fields m.prCache (m.repos[i])

/-- Witness for C5's amended theorem at a concrete input. -/
theorem empty_search_shows_all_repos_witness :
    (filterRepos prModeEmptySearchModel).filteredRepos.length =
      prModeEmptySearchModel.repos.length :=
  (empty_search_shows_all_repos prModeEmptySearchModel rfl).1

/-- A state that started directly in the detail view, currently in PR
mode. -/
def startedDetailPRModeModel : Model :=
  { baseModel with
    repos := [projRepo]
    filteredRepos := [projRepo]
    currentView := .detailView
    selectedRepo := some projRepo
    startedInDetailView := true
    prMode := true }

/--
C6, counterexample to the claim as stated.  From the initial detail view
in PR mode, escape turns PR mode off but does NOT stay in the detail
view: the handler falls through to the reset block, switching to the list
view and clearing the selection.
-/
theorem esc_in_initial_detail_pr_mode_leaves_detail :
    startedDetailPRModeModel.startedInDetailView = true ∧
    startedDetailPRModeModel.currentView = ViewState.detailView ∧
    startedDetailPRModeModel.prMode = true ∧
    startedDetailPRModeModel.selectedRepo = some projRepo ∧
    (updateDetailView startedDetailPRModeModel Key.esc).1.currentView = ViewState.listView ∧
    (updateDetailView startedDetailPRModeModel Key.esc).1.selectedRepo = none := by
  refine ⟨rfl, rfl, rfl, rfl, by decide, by decide⟩

/--
C6, amended.  In a detail-view state that was the process's initial state:
if PR mode is on, escape turns PR mode off, switches to the list view,
and clears the selected repository (emitting no command); if PR mode is
off, escape leaves the state unchanged and terminates the program.
-/
theorem esc_in_initial_detail_view (m : Model)
    (hstart : m.startedInDetailView = true) (_hview : m.currentView = ViewState.detailView) :
    (m.prMode = true →
       (updateDetailView m Key.esc).1.prMode = false ∧
       (updateDetailView m Key.esc).1.currentView = ViewState.listView ∧
       (updateDetailView m Key.esc).1.selectedRepo = none ∧
       (updateDetailView m Key.esc).2 = none) ∧
    (m.prMode = false →
       (updateDetailView m Key.esc).1 = m ∧
       (updateDetailView m Key.esc).2 = some Cmd.quit) := by
  constructor
  · intro hpr
    simp [updateDetailView, hstart, hpr, detailEscReset]
  · intro hpr
    simp [updateDetailView, hstart, hpr]

/-- Witness for C6's amended theorem at a concrete input. -/
theorem esc_in_initial_detail_view_witness :
    (updateDetailView startedDetailPRModeModel Key.esc).1.prMode = false :=
  ((esc_in_initial_detail_view startedDetailPRModeModel rfl rfl).1 rfl).1

lemma filterReposByPRs_filteredRepos_none (m : Model) (h : m.prCache = none) :
    (filterReposByPRs m).filteredRepos = [] := by
  unfold filterReposByPRs
  rw [h]

lemma filterReposByPRs_filteredRepos_unloaded (m : Model) (cache : PRCache)
    (hc : m.prCache = some cache) (hl : cache.loaded = false) :
    (filterReposByPRs m).filteredRepos = [] := by
  unfold filterReposByPRs
  rw [hc]
  simp [hl]

lemma filterReposByPRs_filteredRepos_loaded (m : Model) (cache : PRCache)
    (hc : m.prCache = some cache) (hl : cache.loaded = true) :
    (filterReposByPRs m).filteredRepos = m.repos.filterMap (fun repo =>
      if repo.githubURL ≠ sentinelNA ∧ repo.githubURL ≠ sentinelNonGitHub then
        if !((cache.allPRs.filter (prTitleMatches (toLowerStr m.searchInput))).filter
              (fun pr => pr.repoURL = repo.githubURL)).isEmpty then
          some { repo with
                 matchingPRs := (cache.allPRs.filter (prTitleMatches (toLowerStr m.searchInput))).filter
                   (fun pr => pr.repoURL = repo.githubURL),
                 prCount := (cache.prsByRepo repo.githubURL).length }
        else none
      else none) := by
  unfold filterReposByPRs
  rw [hc]
  simp [hl]

/--
C3.  In PR mode with non-empty search text: with no cache or an unloaded
cache the result is empty; with a loaded cache (whose PRs never carry the
sentinel URLs, as `loadAllUserPRs` guarantees) a repository is in the
result exactly when some cached pull request owned by its GitHub URL has a
lowercased title containing the lowercased search text or matching it
mnemonically, and each included repository carries the total cached
pull-request count for that URL together with the matching subset itself.
-/
theorem pr_mode_filtering (m : Model) (hpr : m.prMode = true) (hs : m.searchInput ≠ []) :
    (m.prCache = none → (filterRepos m).filteredRepos = []) ∧
    ∀ cache, m.prCache = some cache →
      ((cache.loaded = false → (filterRepos m).filteredRepos = []) ∧
       (cache.loaded = true →
        (∀ pr ∈ cache.allPRs, pr.repoURL ≠ sentinelNA ∧ pr.repoURL ≠ sentinelNonGitHub) →
        ∀ repo' : GitRepo,
          (repo' ∈ (filterRepos m).filteredRepos ↔
            ∃ repo ∈ m.repos,
              (∃ pr ∈ cache.allPRs, pr.repoURL = repo.githubURL ∧
                 (containsSubstr (toLowerStr pr.title) (toLowerStr m.searchInput) = true ∨
                  matchesMnemonic (toLowerStr pr.title) (toLowerStr m.searchInput) = true)) ∧
              repo' = { repo with
                matchingPRs := (cache.allPRs.filter (prTitleMatches (toLowerStr m.searchInput))).filter
                  (fun pr => pr.repoURL = repo.githubURL),
                prCount := (cache.prsByRepo repo.githubURL).length }))) := by
  rw [filterRepos_filteredRepos_prMode m hs hpr]
  constructor
  · intro hnone
    exact filterReposByPRs_filteredRepos_none m hnone
  · intro cache hc
    constructor
    · intro hl
      exact filterReposByPRs_filteredRepos_unloaded m cache hc hl
    · intro hl hsent repo'
      rw [filterReposByPRs_filteredRepos_loaded m cache hc hl, List.mem_filterMap]
      have hgroup : ∀ repo : GitRepo,
          (¬((cache.allPRs.filter (prTitleMatches (toLowerStr m.searchInput))).filter
              (fun pr => pr.repoURL = repo.githubURL)).isEmpty = true) ↔
            ∃ pr ∈ cache.allPRs, pr.repoURL = repo.githubURL ∧
              (containsSubstr (toLowerStr pr.title) (toLowerStr m.searchInput) = true ∨
               matchesMnemonic (toLowerStr pr.title) (toLowerStr m.searchInput) = true) := by
        intro repo
        constructor
        · intro hne
          have hne' : (cache.allPRs.filter (prTitleMatches (toLowerStr m.searchInput))).filter
              (fun pr => pr.repoURL = repo.githubURL) ≠ [] := by
            simpa [List.isEmpty_iff] using hne
          obtain ⟨pr, hpr⟩ := List.exists_mem_of_ne_nil _ hne'
          have hm := List.mem_filter.mp hpr
          have hl2 := List.mem_filter.mp hm.1
          exact ⟨pr, hl2.1, by simpa using hm.2,
            by simpa [prTitleMatches, Bool.or_eq_true] using hl2.2⟩
        · rintro ⟨pr, hmem, hurl, hmatch⟩
          have hin : pr ∈ (cache.allPRs.filter (prTitleMatches (toLowerStr m.searchInput))).filter
              (fun pr => pr.repoURL = repo.githubURL) :=
            List.mem_filter.mpr ⟨List.mem_filter.mpr
              ⟨hmem, by simpa [prTitleMatches, Bool.or_eq_true] using hmatch⟩,
              by simpa using hurl⟩
          intro hemp
          rw [List.isEmpty_iff] at hemp
          simp [hemp] at hin
      constructor
      · rintro ⟨repo, hmem, hf⟩
        by_cases hsent' : repo.githubURL ≠ sentinelNA ∧ repo.githubURL ≠ sentinelNonGitHub
        · rw [if_pos hsent'] at hf
          by_cases hemp : ((cache.allPRs.filter (prTitleMatches (toLowerStr m.searchInput))).filter
              (fun pr => pr.repoURL = repo.githubURL)).isEmpty = true
          · rw [if_neg (by simpa using hemp)] at hf
            exact absurd hf (by simp)
          · rw [if_pos (by simpa using hemp), Option.some_inj] at hf
            exact ⟨repo, hmem, (hgroup repo).mp hemp, hf.symm⟩
        · rw [if_neg hsent'] at hf
          exact absurd hf (by simp)
      · rintro ⟨repo, hmem, hex, heq⟩
        refine ⟨repo, hmem, ?_⟩
        have hsent' : repo.githubURL ≠ sentinelNA ∧ repo.githubURL ≠ sentinelNonGitHub := by
          obtain ⟨pr, hprmem, hurl, -⟩ := hex
          have hp := hsent pr hprmem
          rw [hurl] at hp
          exact hp
        have hne := (hgroup repo).mpr hex
        rw [if_pos hsent', if_pos (by simpa using hne), heq]

/-- A cached pull request whose title matches the query `"login"`. -/
def prFix : PR :=
  { number := 1, title := strToBytes "Fix login bug",
    url := strToBytes "https://github.com/o/proj/pull/1",
    repoURL := strToBytes "https://github.com/o/proj" }

/-- A second cached pull request on the same repository, not matching
`"login"`. -/
def prDocs : PR :=
  { number := 2, title := strToBytes "Update docs",
    url := strToBytes "https://github.com/o/proj/pull/2",
    repoURL := strToBytes "https://github.com/o/proj" }

/-- A loaded cache holding both pull requests of the project repository. -/
def loadedCache : PRCache :=
  { allPRs := [prFix, prDocs]
    prsByRepo := fun u => if u = strToBytes "https://github.com/o/proj" then [prFix, prDocs] else []
    loaded := true }

/-- A PR-mode state searching `"login"` over the project repository. -/
def prSearchModel : Model :=
  { baseModel with
    repos := [projRepo]
    prMode := true
    searchInput := strToBytes "login"
    prCache := some loadedCache }

/-- Witness for C3 at a concrete input: the query `"login"` matches exactly
one of the two cached pull requests, and the owning repository is returned
with its total cached count 2 and the single matching pull request. -/
theorem pr_mode_filtering_witness :
    { projRepo with matchingPRs := [prFix], prCount := 2 } ∈
      (filterRepos prSearchModel).filteredRepos :=
  (((pr_mode_filtering prSearchModel rfl (by decide)).2 loadedCache rfl).2 rfl
      (by decide) { projRepo with matchingPRs := [prFix], prCount := 2 }).mpr
    ⟨projRepo, by decide, ⟨prFix, by decide, by decide, Or.inl (by decide)⟩, by decide⟩

lemma clampLow_clampHigh_nonneg (cursor len : Int) : 0 ≤ clampLow (clampHigh cursor len) := by
  unfold clampLow clampHigh
  split
  · omega
  · split <;> omega

lemma clampLow_clampHigh_le (cursor len : Int) (hlen : 0 ≤ len) :
    clampLow (clampHigh cursor len) ≤ max 0 (len - 1) := by
  unfold clampLow clampHigh
  split
  · omega
  · split <;> omega

/--
C7.  The code violates the cursor invariant: with an empty filtered list,
pressing `pgdown` drives the cursor to `-1` (the upper clamp writes
`len - 1 = -1` and nothing restores it to 0), even though every filter
pass does clamp the cursor into `[0, max 0 (len-1)]` and reset the scroll
offset.
-/
theorem pgdown_on_empty_list_breaks_cursor_invariant :
    (baseModel.filteredRepos = [] ∧ baseModel.cursor = 0 ∧ baseModel.scrollOffset = 0 ∧
     (updateListView baseModel Key.pgdown).1.cursor = -1 ∧
     (updateListView baseModel Key.pgdown).1.scrollOffset = 0) ∧
    (∀ m : Model,
       0 ≤ (filterRepos m).cursor ∧
       (filterRepos m).cursor ≤ max 0 (((filterRepos m).filteredRepos.length : Int) - 1) ∧
       (filterRepos m).scrollOffset = 0) := by
  refine ⟨⟨rfl, rfl, rfl, by decide, by decide⟩, ?_⟩
  intro m
  refine ⟨clampLow_clampHigh_nonneg _ _, ?_, rfl⟩
  exact clampLow_clampHigh_le _ _ (by positivity)

lemma commonLoop_le (first : List (List Nat)) (rest : List (List (List Nat))) :
    ∀ (r i : Nat), commonLoop first rest i r ≤ r := by
  intro r
  induction r with
  | zero => intro i; simp [commonLoop]
  | succ n ih =>
    intro i
    unfold commonLoop
    split
    · have := ih (i + 1)
      omega
    · omega

lemma foldl_min_le (l : List (List (List Nat))) :
    ∀ a : Nat, (l.foldl (fun acc p => min acc p.length) a ≤ a) ∧
      ∀ p ∈ l, l.foldl (fun acc p => min acc p.length) a ≤ p.length := by
  induction l with
  | nil => intro a; simp
  | cons x xs ih =>
    intro a
    have h := ih (min a x.length)
    refine ⟨le_trans h.1 (Nat.min_le_left _ _), ?_⟩
    intro p hp
    rcases List.mem_cons.mp hp with hp | hp
    · subst hp
      exact le_trans h.1 (Nat.min_le_right _ _)
    · exact h.2 p hp

lemma findCommonPrefix_le (paths : List (List (List Nat))) :
    ∀ p ∈ paths, findCommonPrefix paths ≤ p.length := by
  cases paths with
  | nil => simp
  | cons first rest =>
    intro p hp
    unfold findCommonPrefix
    exact le_trans (commonLoop_le first rest _ 0) ((foldl_min_le (first :: rest) first.length).2 p hp)

lemma splitOn_ne_nil (a : Nat) (l : List Nat) : l.splitOn a ≠ [] := by
  simpa [List.splitOn] using List.splitOnP_ne_nil (fun b => b == a) l

lemma getLastD_mem {p : List (List Nat)} (h : p ≠ []) : p.getLastD [] ∈ p := by
  rw [List.getLastD_eq_getLast?, List.getLast?_eq_getLast p h]
  exact List.getLast_mem h

lemma intercalate_cons_ne_nil (sep x : List Nat) (xs : List (List Nat)) (hx : x ≠ []) :
    List.intercalate sep (x :: xs) ≠ [] := by
  cases xs with
  | nil => simpa [List.intercalate] using hx
  | cons y ys =>
    have h : List.intercalate sep (x :: y :: ys) = x ++ sep ++ List.intercalate sep (y :: ys) := by
      simp [List.intercalate, List.intersperse]
    rw [h]
    simp [hx]

/-- The three directories of the specification's minimal-path scenario. -/
def exRepoABX : GitRepo :=
  { directory := strToBytes "a/b/x", origin := [], githubURL := [], prCount := 0, matchingPRs := [] }

def exRepoABY : GitRepo :=
  { directory := strToBytes "a/b/y", origin := [], githubURL := [], prCount := 0, matchingPRs := [] }

def exRepoACZ : GitRepo :=
  { directory := strToBytes "a/c/z", origin := [], githubURL := [], prCount := 0, matchingPRs := [] }

/--
C8.  For a non-empty repository set whose common leading-component prefix
has length `k`, the Path Minimizer strips exactly the first `k` components
from every path with more than `k` components, replaces a path with at
most `k` components by its final component alone, and (on cleaned paths,
whose components are non-empty) never produces an empty string; the
scenario `{a/b/x, a/b/y, a/c/z}` minimizes to `{b/x, b/y, c/z}`.
-/
theorem path_minimizer_strips_shared_lead :
    (∀ repos : List GitRepo, repos ≠ [] →
      (∀ r ∈ repos, ∀ comp ∈ r.directory.splitOn 47, comp ≠ []) →
      ((calculateMinimalPaths repos).length = repos.length ∧
       (∀ i, i < repos.length →
         (calculateMinimalPaths repos).getD i [] =
           (if findCommonPrefix (repos.map (fun r => r.directory.splitOn 47)) ≥
               ((repos.getD i default).directory.splitOn 47).length then
              ((repos.getD i default).directory.splitOn 47).getLastD []
            else
              List.intercalate [47] (((repos.getD i default).directory.splitOn 47).drop
                (findCommonPrefix (repos.map (fun r => r.directory.splitOn 47)))))) ∧
       ∀ out ∈ calculateMinimalPaths repos, out ≠ [])) ∧
    calculateMinimalPaths [exRepoABX, exRepoABY, exRepoACZ] =
      [strToBytes "b/x", strToBytes "b/y", strToBytes "c/z"] := by
  refine ⟨?_, by decide⟩
  intro repos hne hcomp
  have hcalc : calculateMinimalPaths repos =
      (repos.map (fun r => r.directory.splitOn 47)).map (fun p =>
        if findCommonPrefix (repos.map (fun r => r.directory.splitOn 47)) ≥ p.length then
          p.getLastD []
        else
          List.intercalate [47] (p.drop
            (findCommonPrefix (repos.map (fun r => r.directory.splitOn 47))))) := by
    simp [calculateMinimalPaths, hne]
  refine ⟨by rw [hcalc]; simp, ?_, ?_⟩
  · intro i hi
    have hi1 : i < (repos.map (fun r => r.directory.splitOn 47)).length := by simpa using hi
    rw [hcalc, List.getD_eq_getElem _ _ (by simpa using hi),
      List.getD_eq_getElem _ _ hi, List.getElem_map, List.getElem_map]
  · intro out hout
    rw [hcalc] at hout
    obtain ⟨p, hp, hfp⟩ := List.mem_map.mp hout
    obtain ⟨r, hr, hpr⟩ := List.mem_map.mp hp
    subst hpr
    have hpne : r.directory.splitOn 47 ≠ [] := splitOn_ne_nil 47 r.directory
    by_cases hk : findCommonPrefix (repos.map (fun r => r.directory.splitOn 47)) ≥
        (r.directory.splitOn 47).length
    · rw [if_pos hk] at hfp
      subst hfp
      exact hcomp r hr _ (getLastD_mem hpne)
    · rw [if_neg hk] at hfp
      have hlt : findCommonPrefix (repos.map (fun r => r.directory.splitOn 47)) <
          (r.directory.splitOn 47).length := Nat.lt_of_not_ge hk
      have hdne : (r.directory.splitOn 47).drop
          (findCommonPrefix (repos.map (fun r => r.directory.splitOn 47))) ≠ [] := by
        rw [ne_eq, List.drop_eq_nil_iff]
        omega
      obtain ⟨c, cs, hccs⟩ := List.exists_cons_of_ne_nil hdne
      have hcmem : c ∈ r.directory.splitOn 47 := by
        apply List.drop_subset _ _
        rw [hccs]
        exact List.mem_cons_self c cs
      have hcne : c ≠ [] := hcomp r hr c hcmem
      rw [← hfp, hccs]
      exact intercalate_cons_ne_nil [47] c cs hcne

/-- Witness for C8's theorem, instantiated at the specification's
scenario: no minimized path is empty. -/
theorem path_minimizer_strips_shared_lead_witness :
    ∀ out ∈ calculateMinimalPaths [exRepoABX, exRepoABY, exRepoACZ], out ≠ [] :=
  (path_minimizer_strips_shared_lead.1 [exRepoABX, exRepoABY, exRepoACZ]
    (by decide) (by decide)).2.2
